import Mathlib

/-!
Verification of the pymanopt manifold core (Stiefel, FixedRankEmbedded, Product)
against its natural-language specification.

The Python source is shallowly embedded: numpy arrays become Mathlib matrices
over a linear ordered field (`ℚ` where executability matters, `ℝ` where the
matrix exponential is involved), external numerical routines
(`numpy.linalg.qr`, `numpy.linalg.svd`, `numpy.random.*`, `scipy.linalg.expm`)
become either function parameters constrained by their documented contracts or
Mathlib's own exact counterparts (`NormedSpace.exp`), and the in-place update
loops of `Stiefel.retr` are additionally modelled by an explicit heap of
numpy-array references to settle the frame claims.
-/

open scoped Matrix

namespace Pymanopt

/-! ## Stiefel manifold (src/pymanopt/manifolds/stiefel.py) -/

namespace Stiefel

variable {α : Type} [LinearOrderedField α]

/-- Modelled from the spec: `multisym` from `pymanopt.tools.multi` (not under
`src/`), given in the spec as `sym(A) = (A + Aᵀ)/2`. -/
def multisym {p : ℕ} (A : Matrix (Fin p) (Fin p) α) : Matrix (Fin p) (Fin p) α :=
  (2⁻¹ : α) • (A + Aᵀ)

/-- Source `Stiefel.proj` (single block): `U - multiprod(X, multisym(multiprod(multitransp(X), U)))`. -/
def proj {n p : ℕ} (X U : Matrix (Fin n) (Fin p) α) : Matrix (Fin n) (Fin p) α :=
  U - X * multisym (Xᵀ * U)

/-- Source `Stiefel.proj` for a `k`-block point (the per-block broadcasting of
`multiprod`/`multisym`/`multitransp`). -/
def projK {n p k : ℕ} (X U : Fin k → Matrix (Fin n) (Fin p) α) :
    Fin k → Matrix (Fin n) (Fin p) α :=
  fun i => proj (X i) (U i)

/-- Source `Stiefel.inner` (2-d case): `np.tensordot(G, H, axes=G.ndim)`, the sum
of all entrywise products. The point argument `X` is received and ignored,
exactly as in the source. -/
def inner {n p : ℕ} (_X G H : Matrix (Fin n) (Fin p) α) : α :=
  ∑ i, ∑ j, G i j * H i j

/-- Source `Stiefel.inner` (3-d case, `k` blocks): `np.tensordot` over all three
axes. -/
def innerK {n p k : ℕ} (_X G H : Fin k → Matrix (Fin n) (Fin p) α) : α :=
  ∑ b, ∑ i, ∑ j, G b i j * H b i j

/-- Embedding of `numpy.sign`: `1` on positives, `-1` on negatives, `0` at `0`. -/
def npSign (x : α) : α :=
  if 0 < x then 1 else if x < 0 then -1 else 0

/-- The diagonal entries of the sign-correction factor of `Stiefel.retr`:
`np.sign(np.sign(np.diag(r)) + 0.5)` applied to a diagonal entry of `r`. -/
def signCorrection (x : α) : α :=
  npSign (npSign x + 1 / 2)

/-- The sign-correction diagonal matrix `np.diag(np.sign(np.sign(np.diag(r)) + 0.5))`
built from the `r` factor of a QR decomposition. -/
def signDiag {p : ℕ} (r : Matrix (Fin p) (Fin p) α) : Matrix (Fin p) (Fin p) α :=
  Matrix.diagonal fun j => signCorrection (r j j)

/-- Documented contract of `numpy.linalg.qr` in reduced mode on an `n × p` input
with `n ≥ p`: the returned `q` factor has orthonormal columns. The routine is
external to the repository, so it enters the embedding as a function parameter
constrained by this contract. -/
def npQRContract {n p : ℕ} (qr : Matrix (Fin n) (Fin p) α →
    Matrix (Fin n) (Fin p) α × Matrix (Fin p) (Fin p) α) : Prop :=
  ∀ A, ((qr A).1)ᵀ * (qr A).1 = 1

/-- Source `Stiefel.retr`, `k == 1` branch: thin QR of `X + G`, then the sign
correction `q @ np.diag(np.sign(np.sign(np.diag(r)) + 0.5))`. -/
def retr {n p : ℕ}
    (qr : Matrix (Fin n) (Fin p) α → Matrix (Fin n) (Fin p) α × Matrix (Fin p) (Fin p) α)
    (X G : Matrix (Fin n) (Fin p) α) : Matrix (Fin n) (Fin p) α :=
  (qr (X + G)).1 * signDiag (qr (X + G)).2

/-- Source `Stiefel.retr`, `k > 1` branch: the same QR-plus-sign-correction step
applied to each block of `X + G` (the value computed by the in-place loop; the
heap model below shows the loop writes only the fresh array). -/
def retrK {n p k : ℕ}
    (qr : Matrix (Fin n) (Fin p) α → Matrix (Fin n) (Fin p) α × Matrix (Fin p) (Fin p) α)
    (X G : Fin k → Matrix (Fin n) (Fin p) α) : Fin k → Matrix (Fin n) (Fin p) α :=
  fun i => retr qr (X i) (G i)

/-- Source `Stiefel.rand`, `k == 1` branch: the `q` factor of the QR
decomposition of a standard-normal random matrix (the random sample is a
parameter, the call to `numpy.linalg.qr` a constrained parameter). -/
def rand {n p : ℕ}
    (qr : Matrix (Fin n) (Fin p) α → Matrix (Fin n) (Fin p) α × Matrix (Fin p) (Fin p) α)
    (randn : Matrix (Fin n) (Fin p) α) : Matrix (Fin n) (Fin p) α :=
  (qr randn).1

end Stiefel

/-! ### Stiefel exponential map (`scipy.linalg.expm` embedded as the exact
matrix exponential `NormedSpace.exp ℝ`) -/

namespace Stiefel

/-- The block matrix `np.bmat([[X.T @ U, -U.T @ U], [np.eye(p), X.T @ U]])`
assembled by `Stiefel.exp`. -/
def expM {n p : ℕ} (X U : Matrix (Fin n) (Fin p) ℝ) :
    Matrix (Fin p ⊕ Fin p) (Fin p ⊕ Fin p) ℝ :=
  Matrix.fromBlocks (Xᵀ * U) (-(Uᵀ * U)) 1 (Xᵀ * U)

/-- Source `Stiefel.exp`, `k == 1` branch:
`Y = np.bmat([X, U]) @ expm(M) @ np.bmat([[expm(-X.T @ U)], [0]])`. -/
noncomputable def exp {n p : ℕ} (X U : Matrix (Fin n) (Fin p) ℝ) :
    Matrix (Fin n) (Fin p) ℝ :=
  Matrix.fromColumns X U * NormedSpace.exp ℝ (expM X U) *
    Matrix.fromRows (NormedSpace.exp ℝ (-(Xᵀ * U))) 0

/-- Source `Stiefel.exp`, `k > 1` branch: the same computation per block. -/
noncomputable def expK {n p k : ℕ} (X U : Fin k → Matrix (Fin n) (Fin p) ℝ) :
    Fin k → Matrix (Fin n) (Fin p) ℝ :=
  fun i => exp (X i) (U i)

end Stiefel

/-! ## FixedRankEmbedded manifold (src/pymanopt/manifolds/fixed_rank.py)

Points are triples `(U, S, Vt)` with `U : m × k`, `S : k`-vector, `Vt : k × n`;
tangent vectors are triples `(Up, M, Vp)` with `Up : m × k`, `M : k × k`,
`Vp : n × k`, exactly matching the index accesses `X[0]`, `X[1]`, `X[2]` and
`Z[0]`, `Z[1]`, `Z[2]` of the source. -/

namespace FixedRankEmbedded

variable {α : Type} [LinearOrderedField α]

/-- Source `FixedRankEmbedded.proj` for a dense `m × n` ambient matrix `Z`
(the `_apply_ambient` branch for plain arrays): computes
`ZV = Z @ X[2].T`, `UtZV = X[0].T @ ZV`, `ZtU = Z.T @ X[0]` and returns
`(ZV - X[0] @ UtZV, UtZV, ZtU - X[2].T @ UtZV.T)`. -/
def proj {m n k : ℕ}
    (X : Matrix (Fin m) (Fin k) α × (Fin k → α) × Matrix (Fin k) (Fin n) α)
    (Z : Matrix (Fin m) (Fin n) α) :
    Matrix (Fin m) (Fin k) α × Matrix (Fin k) (Fin k) α × Matrix (Fin n) (Fin k) α :=
  let ZV := Z * X.2.2ᵀ
  let UtZV := X.1ᵀ * ZV
  let ZtU := Zᵀ * X.1
  (ZV - X.1 * UtZV, UtZV, ZtU - X.2.2ᵀ * UtZVᵀ)

/-- Source `FixedRankEmbedded.proj` when the second argument is a factor triple
`(Z[0], Z[1], Z[2])` (the `isinstance(Z, (list, tuple))` branch of
`_apply_ambient` / `_apply_ambient_transpose`, which a `_FixedRankTangentVector`
namedtuple also takes): `ZV = Z[0] @ Z[1] @ Z[2].T @ X[2].T`,
`ZtU = Z[2] @ Z[1] @ Z[0].T @ X[0]`. -/
def projFactored {m n k : ℕ}
    (X : Matrix (Fin m) (Fin k) α × (Fin k → α) × Matrix (Fin k) (Fin n) α)
    (Z : Matrix (Fin m) (Fin k) α × Matrix (Fin k) (Fin k) α × Matrix (Fin n) (Fin k) α) :
    Matrix (Fin m) (Fin k) α × Matrix (Fin k) (Fin k) α × Matrix (Fin n) (Fin k) α :=
  let ZV := Z.1 * Z.2.1 * Z.2.2ᵀ * X.2.2ᵀ
  let UtZV := X.1ᵀ * ZV
  let ZtU := Z.2.2 * Z.2.1 * Z.1ᵀ * X.1
  (ZV - X.1 * UtZV, UtZV, ZtU - X.2.2ᵀ * UtZVᵀ)

/-- Embedding of `numpy.spacing(1)`, the machine-epsilon perturbation added to
the singular values in `FixedRankEmbedded.retr`. -/
def npSpacing1 : α := ((2 : α) ^ (52 : ℕ))⁻¹

/-- The block matrix `T` assembled by `FixedRankEmbedded.retr`:
`np.vstack((np.hstack((np.diag(X[1]) + Z[1], Rv.T)), np.hstack((Ru, 0))))`. -/
def retrT {m n k : ℕ}
    (X : Matrix (Fin m) (Fin k) α × (Fin k → α) × Matrix (Fin k) (Fin n) α)
    (Z : Matrix (Fin m) (Fin k) α × Matrix (Fin k) (Fin k) α × Matrix (Fin n) (Fin k) α)
    (Ru Rv : Matrix (Fin k) (Fin k) α) :
    Matrix (Fin k ⊕ Fin k) (Fin k ⊕ Fin k) α :=
  Matrix.fromBlocks (Matrix.diagonal X.2.1 + Z.2.1) Rvᵀ Ru 0

/-- Documented contract of `numpy.linalg.svd`: the returned singular values are
non-negative. The routine is external to the repository, so it enters the
embedding as a function parameter (returning `(Ut, St, Vt)`) constrained by
this contract. -/
def npSVDContract {k : ℕ}
    (svd : Matrix (Fin k ⊕ Fin k) (Fin k ⊕ Fin k) α →
      Matrix (Fin k ⊕ Fin k) (Fin k ⊕ Fin k) α × (Fin k ⊕ Fin k → α) ×
        Matrix (Fin k ⊕ Fin k) (Fin k ⊕ Fin k) α) : Prop :=
  ∀ A i, 0 ≤ (svd A).2.1 i

/-- Source `FixedRankEmbedded.retr`. The external decompositions enter as
function parameters: `(Qu, Ru) = np.linalg.qr(Z[0])`, `(Qv, Rv) = np.linalg.qr(Z[2])`,
and `(Ut, St, Vt) = np.linalg.svd(T, full_matrices=False)` with `Vt`
subsequently transposed as in the source. The result recombines the leading
`k` columns with `[X[0] | Qu]` and `[X[2].T | Qv]` and perturbs the singular
values: `S = St[:k] + np.spacing(1)`. -/
def retr {m n k : ℕ}
    (qrU : Matrix (Fin m) (Fin k) α → Matrix (Fin m) (Fin k) α × Matrix (Fin k) (Fin k) α)
    (qrV : Matrix (Fin n) (Fin k) α → Matrix (Fin n) (Fin k) α × Matrix (Fin k) (Fin k) α)
    (svd : Matrix (Fin k ⊕ Fin k) (Fin k ⊕ Fin k) α →
      Matrix (Fin k ⊕ Fin k) (Fin k ⊕ Fin k) α × (Fin k ⊕ Fin k → α) ×
        Matrix (Fin k ⊕ Fin k) (Fin k ⊕ Fin k) α)
    (X : Matrix (Fin m) (Fin k) α × (Fin k → α) × Matrix (Fin k) (Fin n) α)
    (Z : Matrix (Fin m) (Fin k) α × Matrix (Fin k) (Fin k) α × Matrix (Fin n) (Fin k) α) :
    Matrix (Fin m) (Fin k) α × (Fin k → α) × Matrix (Fin k) (Fin n) α :=
  let Qu := (qrU Z.1).1
  let Ru := (qrU Z.1).2
  let Qv := (qrV Z.2.2).1
  let Rv := (qrV Z.2.2).2
  let T := retrT X Z Ru Rv
  let Ut := (svd T).1
  let St := (svd T).2.1
  let Vt := ((svd T).2.2)ᵀ
  let U := Matrix.fromColumns X.1 Qu * Ut.submatrix id Sum.inl
  let V := Matrix.fromColumns X.2.2ᵀ Qv * Vt.submatrix id Sum.inl
  let S := fun i => St (Sum.inl i) + npSpacing1
  (U, S, Vᵀ)

/-- Source `FixedRankEmbedded.rand`: `u` is the `q` factor of the QR of a random
matrix (the internal `Stiefel(m, k).rand()`), `s` is `np.sort(np.random.rand(k))[::-1]`,
and `vt` is the transpose of the `q` factor from `Stiefel(n, k).rand()`. The
uniform samples are a list parameter, sorted ascending and reversed exactly as
in the source. -/
def rand {m n k : ℕ} (qU : Matrix (Fin m) (Fin k) α) (qV : Matrix (Fin n) (Fin k) α)
    (samples : List α) :
    Matrix (Fin m) (Fin k) α × List α × Matrix (Fin k) (Fin n) α :=
  (qU, (samples.insertionSort (· ≤ ·)).reverse, qVᵀ)

end FixedRankEmbedded

/-! ## Product manifold (src/pymanopt/manifolds/product.py)

A product of `N` factor manifolds is embedded as an `N`-indexed family of
point types `P i` and tangent types `T i` together with the factors'
operations, received as function families exactly as `Product` receives its
`self._manifolds` tuple and calls `man.inner`, `man.proj`, `man.randvec`
positionally. -/

namespace Product

/-- Source `Product.proj`: delegates to each factor at the matching position. -/
def proj {N : ℕ} {P T : Fin N → Type} (manProj : ∀ i, P i → T i → T i)
    (X : ∀ i, P i) (U : ∀ i, T i) : ∀ i, T i :=
  fun i => manProj i (X i) (U i)

/-- Source `Product.inner`: `np.sum` of the factor inner products. -/
def inner {N : ℕ} {P T : Fin N → Type} (manInner : ∀ i, P i → T i → T i → ℝ)
    (X : ∀ i, P i) (G H : ∀ i, T i) : ℝ :=
  ∑ i, manInner i (X i) (G i) (H i)

/-- Source `Product.norm`: `np.sqrt(self.inner(X, G, G))`. -/
noncomputable def norm {N : ℕ} {P T : Fin N → Type}
    (manInner : ∀ i, P i → T i → T i → ℝ) (X : ∀ i, P i) (G : ∀ i, T i) : ℝ :=
  Real.sqrt (inner manInner X G G)

/-- Source `Product.randvec` scaling factor `len(self._manifolds) ** (-1/2)`. -/
noncomputable def scale (N : ℕ) : ℝ := (N : ℝ) ^ (-(1 / 2) : ℝ)

/-- Source `Product.randvec`: each factor sample is scaled by
`len(self._manifolds) ** (-1/2)`. -/
noncomputable def randvec {N : ℕ} {P T : Fin N → Type} [∀ i, SMul ℝ (T i)]
    (manRandvec : ∀ i, P i → T i) (X : ∀ i, P i) : ∀ i, T i :=
  fun i => scale N • manRandvec i (X i)

end Product

/-! ### Python object semantics for `Product.__init__` and `Product.__setattr__` -/

/-- An argument passed to `Product(*manifolds)`: either a manifold instance
(which may itself be a `Product`, flagged by `isProd`) or a non-manifold
value; the `id` tags the concrete object. -/
inductive PyArg where
  | manifold (isProd : Bool) (id : ℕ)
  | other (id : ℕ)
deriving DecidableEq

/-- The `isinstance(manifold, Manifold)` test of `Product.__init__`. -/
def PyArg.isManifold : PyArg → Bool
  | PyArg.manifold _ _ => true
  | PyArg.other _ => false

/-- The `isinstance(manifold, Product)` test of `Product.__init__`. -/
def PyArg.isProduct : PyArg → Bool
  | PyArg.manifold b _ => b
  | PyArg.other _ => false

/-- A constructed `Product` instance: its factor tuple plus any further
attribute bindings made through `__setattr__`. -/
structure Product.Obj where
  manifolds : List PyArg
  attrs : List (String × ℕ)
deriving DecidableEq

/-- The validation loop of `Product.__init__`: the first non-manifold or nested
`Product` argument raises a `ValueError`. -/
def Product.checkArgs : List PyArg → Except String Unit
  | [] => Except.ok ()
  | a :: rest =>
    if a.isManifold = false then Except.error "Unsupport manifold of type"
    else if a.isProduct = true then
      Except.error "Nested product manifolds are not supported"
    else Product.checkArgs rest

/-- Source `Product.__init__`: an empty argument tuple raises
`ValueError("At least one manifold required")`, then each argument is
validated, then the factor tuple is stored. -/
def Product.init (args : List PyArg) : Except String Product.Obj :=
  if args.length = 0 then Except.error "At least one manifold required"
  else
    match Product.checkArgs args with
    | Except.error e => Except.error e
    | Except.ok _ => Except.ok ⟨args, []⟩

/-- Modelled from the spec: `hasattr(self, key)` for a constructed `Product`.
The spec states that a `Product` instance exposes a `manifolds` attribute
post-construction (the accessor itself lives in base-class code that is not
under `src/`), so the attribute set contains `manifolds` plus whatever was
bound through `__setattr__`. -/
def Product.hasattrPy (o : Product.Obj) (key : String) : Bool :=
  key == "manifolds" || o.attrs.any fun kv => kv.1 == key

/-- The effect of `super().__setattr__(key, value)`: bind the attribute. -/
def Product.bindattr (o : Product.Obj) (key : String) (v : ℕ) : Product.Obj :=
  ⟨o.manifolds, (key, v) :: o.attrs⟩

/-- Source `Product.__setattr__`: if the attribute already exists and is named
`manifolds`, raise an `AttributeError`; otherwise delegate to the default
setter. -/
def Product.setattrPy (o : Product.Obj) (key : String) (v : ℕ) :
    Except String Product.Obj :=
  if Product.hasattrPy o key then
    if key = "manifolds" then
      Except.error "Cannot override manifolds attribute"
    else Except.ok (Product.bindattr o key v)
  else Except.ok (Product.bindattr o key v)

/-! ### Array-reference heap model for the mutation behaviour of the source

numpy arrays are mutable objects; to settle the read-only claims the relevant
operations are re-run over an explicit heap (a list of array values indexed by
references), where `numpy` allocations append a fresh cell and the in-place
block assignment `XNew[i] = ...` of `Stiefel.retr` writes into an existing
cell. -/

/-- Source `FixedRankEmbedded.inner`:
`np.sum(np.tensordot(a, b) for (a, b) in zip(G, H))`, the sum of the three
componentwise Frobenius products. The point `X` is ignored as in the source. -/
def FixedRankEmbedded.inner {α : Type} [LinearOrderedField α] {m n k : ℕ}
    (_X : Matrix (Fin m) (Fin k) α × (Fin k → α) × Matrix (Fin k) (Fin n) α)
    (G H : Matrix (Fin m) (Fin k) α × Matrix (Fin k) (Fin k) α × Matrix (Fin n) (Fin k) α) :
    α :=
  (∑ i, ∑ j, G.1 i j * H.1 i j) + (∑ i, ∑ j, G.2.1 i j * H.2.1 i j) +
    (∑ i, ∑ j, G.2.2 i j * H.2.2 i j)

/-- A `k`-block Stiefel array value (the contents of one numpy array of shape
`(k, n, p)`). -/
abbrev SBlocks (n p k : ℕ) : Type := Fin k → Matrix (Fin n) (Fin p) ℚ

/-- Dereference an array reference in the heap (reads of unallocated
references return a zero array; the programs below never perform such reads
under the stated hypotheses). -/
def readArr {n p k : ℕ} (h : List (SBlocks n p k)) (r : ℕ) : SBlocks n p k :=
  h.getD r 0

/-- The in-place block assignment `arr[i] = v` on the array at reference `r`. -/
def writeBlock {n p k : ℕ} (h : List (SBlocks n p k)) (r : ℕ) (i : Fin k)
    (v : Matrix (Fin n) (Fin p) ℚ) : List (SBlocks n p k) :=
  h.set r (Function.update (readArr h r) i v)

/-- The per-block body of the `Stiefel.retr` loop:
`q, r = np.linalg.qr(XNew[i]); q @ np.diag(np.sign(np.sign(np.diag(r)) + 0.5))`. -/
def retrBlockValue {n p : ℕ}
    (qr : Matrix (Fin n) (Fin p) ℚ → Matrix (Fin n) (Fin p) ℚ × Matrix (Fin p) (Fin p) ℚ)
    (A : Matrix (Fin n) (Fin p) ℚ) : Matrix (Fin n) (Fin p) ℚ :=
  (qr A).1 * Stiefel.signDiag (qr A).2

/-- Source `Stiefel.retr`, `k > 1` branch, as a heap program: `XNew = X + G`
allocates a fresh array (numpy `+` allocates), then the loop
`for i in range(k): XNew[i] = ...` writes each block of that fresh array in
place. Returns the final heap and the reference to `XNew`. -/
def runRetrK {n p k : ℕ}
    (qr : Matrix (Fin n) (Fin p) ℚ → Matrix (Fin n) (Fin p) ℚ × Matrix (Fin p) (Fin p) ℚ)
    (h : List (SBlocks n p k)) (xr gr : ℕ) : List (SBlocks n p k) × ℕ :=
  ((List.finRange k).foldl
    (fun hh i => writeBlock hh h.length i (retrBlockValue qr (readArr hh h.length i)))
    (h ++ [fun i => readArr h xr i + readArr h gr i]),
  h.length)

/-- A heap value for the `FixedRankEmbedded.randvec` program: the numpy arrays
appearing there have shapes `(m, k)`, `(k, k)`, `(n, k)`, `(k, n)`, `(k,)` or
are scalars. -/
inductive FVal (m n k : ℕ) where
  | matMK (A : Matrix (Fin m) (Fin k) ℝ)
  | matKK (A : Matrix (Fin k) (Fin k) ℝ)
  | matNK (A : Matrix (Fin n) (Fin k) ℝ)
  | matKN (A : Matrix (Fin k) (Fin n) ℝ)
  | vecK (v : Fin k → ℝ)
  | scal (x : ℝ)

/-- Read a heap value as an `(m, k)` matrix. -/
def FVal.asMK {m n k : ℕ} : FVal m n k → Matrix (Fin m) (Fin k) ℝ
  | FVal.matMK A => A
  | _ => 0

/-- Read a heap value as a `(k, n)` matrix. -/
def FVal.asKN {m n k : ℕ} : FVal m n k → Matrix (Fin k) (Fin n) ℝ
  | FVal.matKN A => A
  | _ => 0

/-- Read a heap value as a `(k,)` vector. -/
def FVal.asVK {m n k : ℕ} : FVal m n k → (Fin k → ℝ)
  | FVal.vecK v => v
  | _ => 0

/-- Source `FixedRankEmbedded.randvec` as a heap program over the point
`X = (heap[ur], heap[sr], heap[vtr])`. The three standard-normal draws are
parameters; every numpy expression allocates a fresh array (`_tangent` builds
`Up - u @ u.T @ Up` and `Vp - vt.T @ vt @ Vp`, `norm` produces a scalar, and
the final `_FixedRankTangentVector(Z[0] / nrm, Z[1] / nrm, Z[2] / nrm)`
allocates the three result arrays, scalar division being the scaling by
`nrm⁻¹`). No step writes into an existing cell. Returns the final heap and
the three result references. -/
noncomputable def runFreRandvec {m n k : ℕ} (h : List (FVal m n k)) (ur sr vtr : ℕ)
    (Upr : Matrix (Fin m) (Fin k) ℝ) (Mr : Matrix (Fin k) (Fin k) ℝ)
    (Vpr : Matrix (Fin n) (Fin k) ℝ) : List (FVal m n k) × (ℕ × ℕ × ℕ) :=
  let u := FVal.asMK (h.getD ur (FVal.scal 0))
  let s := FVal.asVK (h.getD sr (FVal.scal 0))
  let vt := FVal.asKN (h.getD vtr (FVal.scal 0))
  let Up1 := Upr - u * (uᵀ * Upr)
  let Vp1 := Vpr - vtᵀ * (vt * Vpr)
  let nrm := Real.sqrt (FixedRankEmbedded.inner (u, s, vt) (Up1, Mr, Vp1) (Up1, Mr, Vp1))
  (h ++ [FVal.matMK Upr, FVal.matNK Vpr, FVal.matKK Mr,
      FVal.matMK Up1, FVal.matNK Vp1, FVal.scal nrm,
      FVal.matMK (nrm⁻¹ • Up1), FVal.matKK (nrm⁻¹ • Mr), FVal.matNK (nrm⁻¹ • Vp1)],
    (h.length + 6, h.length + 7, h.length + 8))

/-! ### Constructor validation (`Stiefel.__init__`, `FixedRankEmbedded.__init__`) -/

/-- Source `Stiefel.__init__` validation: raises
`ValueError` when `n < p or p < 1`, then when `k < 1`; otherwise the instance
stores `(n, p, k)`. -/
def Stiefel.init (n p k : ℤ) : Except String (ℤ × ℤ × ℤ) :=
  if n < p ∨ p < 1 then Except.error "Need n greater or equal p greater or equal 1"
  else if k < 1 then Except.error "Need k greater or equal 1"
  else Except.ok (n, p, k)

/-- Source `FixedRankEmbedded.__init__`: performs no validation of its own;
it constructs `Stiefel(m, k)` and `Stiefel(n, k)` (each with default block
count `1`), whose parameter validation is the only check that runs. -/
def FixedRankEmbedded.init (m n k : ℤ) :
    Except String ((ℤ × ℤ × ℤ) × (ℤ × ℤ × ℤ)) :=
  match Stiefel.init m k 1 with
  | Except.error e => Except.error e
  | Except.ok sm =>
    match Stiefel.init n k 1 with
    | Except.error e => Except.error e
    | Except.ok sn => Except.ok (sm, sn)

/-- Whether a Python call raised (`error`) rather than returned. -/
def errored {β : Type} : Except String β → Bool
  | Except.error _ => true
  | Except.ok _ => false

/-- Source `Stiefel.rand`, `k > 1` branch: each block of the result is the `q`
factor of the QR decomposition of an independent standard-normal draw. -/
def Stiefel.randK {α : Type} [LinearOrderedField α] {n p k : ℕ}
    (qr : Matrix (Fin n) (Fin p) α → Matrix (Fin n) (Fin p) α × Matrix (Fin p) (Fin p) α)
    (randn : Fin k → Matrix (Fin n) (Fin p) α) : Fin k → Matrix (Fin n) (Fin p) α :=
  fun i => (qr (randn i)).1

/-! ### Concrete instances used by witnesses and the counterexample -/

/-- A concrete valid `FixedRankEmbedded(2, 2, 1)` point: `U = e₁`, `S = (1)`,
`Vt = e₁ᵀ`. -/
def c1X : Matrix (Fin 2) (Fin 1) ℚ × (Fin 1 → ℚ) × Matrix (Fin 1) (Fin 2) ℚ :=
  (!![1; 0], fun _ => 1, !![1, 0])

/-- A concrete dense ambient matrix whose projection at `c1X` is nonzero. -/
def c1Z : Matrix (Fin 2) (Fin 2) ℚ := !![0, 1; 1, 0]

/-- A concrete function satisfying the `numpy.linalg.qr` orthonormality
contract on `1 × 1` real matrices. -/
def w5qr : Matrix (Fin 1) (Fin 1) ℝ →
    Matrix (Fin 1) (Fin 1) ℝ × Matrix (Fin 1) (Fin 1) ℝ :=
  fun A => (1, A)

/-! ## Proof development: helper lemmas, then the claim theorems -/

/-! ### Helper lemmas about the Stiefel operations -/

/-- With `XᵀX = 1`, the matrix `Xᵀ·proj X U` is antisymmetric, so its `multisym`
vanishes. -/
theorem stiefel_multisym_transpose_proj {α : Type} [LinearOrderedField α] {n p : ℕ}
    (X U : Matrix (Fin n) (Fin p) α) (h : Xᵀ * X = 1) :
    Stiefel.multisym (Xᵀ * Stiefel.proj X U) = 0 := by
  have h1 : Xᵀ * Stiefel.proj X U =
      Xᵀ * U - (2⁻¹ : α) • (Xᵀ * U + (Xᵀ * U)ᵀ) := by
    rw [Stiefel.proj, Stiefel.multisym, Matrix.mul_sub, Matrix.mul_smul,
      Matrix.mul_smul, ← Matrix.mul_assoc, h, Matrix.one_mul]
  rw [Stiefel.multisym, h1]
  have h2 : (Xᵀ * U - (2⁻¹ : α) • (Xᵀ * U + (Xᵀ * U)ᵀ)) +
      (Xᵀ * U - (2⁻¹ : α) • (Xᵀ * U + (Xᵀ * U)ᵀ))ᵀ = 0 := by
    rw [Matrix.transpose_sub, Matrix.transpose_smul, Matrix.transpose_add,
      Matrix.transpose_transpose]
    module
  rw [h2, smul_zero]

/-- Idempotence of the Stiefel projection at an orthonormal point. -/
theorem stiefel_proj_idem {α : Type} [LinearOrderedField α] {n p : ℕ}
    (X U : Matrix (Fin n) (Fin p) α) (h : Xᵀ * X = 1) :
    Stiefel.proj X (Stiefel.proj X U) = Stiefel.proj X U := by
  have h0 := stiefel_multisym_transpose_proj X U h
  rw [Stiefel.proj, h0]
  rw [Matrix.mul_zero, sub_zero]

/-- Evaluation of `numpy.sign` on a positive argument. -/
theorem npSign_pos {α : Type} [LinearOrderedField α] {x : α} (h : 0 < x) :
    Stiefel.npSign x = 1 := by
  unfold Stiefel.npSign
  rw [if_pos h]

/-- Evaluation of `numpy.sign` on a negative argument. -/
theorem npSign_neg {α : Type} [LinearOrderedField α] {x : α} (h : x < 0) :
    Stiefel.npSign x = -1 := by
  unfold Stiefel.npSign
  rw [if_neg (asymm h), if_pos h]

/-- Evaluation of `numpy.sign` at zero. -/
theorem npSign_zero {α : Type} [LinearOrderedField α] :
    Stiefel.npSign (0 : α) = 0 := by
  unfold Stiefel.npSign
  rw [if_neg (lt_irrefl 0), if_neg (lt_irrefl 0)]

/-- Each diagonal entry of the sign-correction factor is `1` or `-1`. -/
theorem stiefel_signCorrection_mem {α : Type} [LinearOrderedField α] (x : α) :
    Stiefel.signCorrection x = 1 ∨ Stiefel.signCorrection x = -1 := by
  rcases lt_trichotomy 0 x with hx | hx | hx
  · left
    unfold Stiefel.signCorrection
    rw [npSign_pos hx, npSign_pos (by norm_num : (0 : α) < 1 + 1 / 2)]
  · left
    unfold Stiefel.signCorrection
    rw [← hx, npSign_zero, npSign_pos (by norm_num : (0 : α) < 0 + 1 / 2)]
  · right
    unfold Stiefel.signCorrection
    rw [npSign_neg hx, npSign_neg (by norm_num : (-1 + 1 / 2 : α) < 0)]

/-- Multiplying on the right by the sign-correction diagonal matrix preserves
orthonormal columns. -/
theorem stiefel_signDiag_preserves {α : Type} [LinearOrderedField α] {n p : ℕ}
    (q : Matrix (Fin n) (Fin p) α) (r : Matrix (Fin p) (Fin p) α)
    (hq : qᵀ * q = 1) :
    (q * Stiefel.signDiag r)ᵀ * (q * Stiefel.signDiag r) = 1 := by
  rw [Matrix.transpose_mul, Matrix.mul_assoc, ← Matrix.mul_assoc qᵀ q _, hq,
    Matrix.one_mul, Stiefel.signDiag, Matrix.diagonal_transpose,
    Matrix.diagonal_mul_diagonal]
  have h1 : (fun j => Stiefel.signCorrection (r j j) * Stiefel.signCorrection (r j j)) =
      fun _ => (1 : α) := by
    funext j
    rcases stiefel_signCorrection_mem (r j j) with h | h <;> rw [h] <;> norm_num
  rw [h1, Matrix.diagonal_one]

/-- Orthonormality of the output of `Stiefel.retr` (single block), given the
documented contract of `numpy.linalg.qr`. -/
theorem stiefel_retr_orthonormal {α : Type} [LinearOrderedField α] {n p : ℕ}
    (qr : Matrix (Fin n) (Fin p) α → Matrix (Fin n) (Fin p) α × Matrix (Fin p) (Fin p) α)
    (hqr : Stiefel.npQRContract qr) (X G : Matrix (Fin n) (Fin p) α) :
    (Stiefel.retr qr X G)ᵀ * Stiefel.retr qr X G = 1 :=
  stiefel_signDiag_preserves _ _ (hqr (X + G))

/-- Semiconjugation passes through the matrix exponential: if `J·A = B·J` then
`J·exp(A) = exp(B)·J`. -/
theorem matrix_mul_exp_of_semiconj {q : Type} [Fintype q] [DecidableEq q]
    {J A B : Matrix q q ℝ} (h : J * A = B * J) :
    J * NormedSpace.exp ℝ A = NormedSpace.exp ℝ B * J := by
  letI : SeminormedRing (Matrix q q ℝ) := Matrix.linftyOpSemiNormedRing
  letI : NormedRing (Matrix q q ℝ) := Matrix.linftyOpNormedRing
  letI : NormedAlgebra ℝ (Matrix q q ℝ) := Matrix.linftyOpNormedAlgebra
  have hsc : SemiconjBy J A B := h
  simp only [NormedSpace.exp_eq_tsum]
  rw [← (NormedSpace.expSeries_summable' (𝕂 := ℝ) A).tsum_mul_left J,
    ← (NormedSpace.expSeries_summable' (𝕂 := ℝ) B).tsum_mul_right J]
  refine tsum_congr fun k => ?_
  rw [mul_smul_comm, smul_mul_assoc, (hsc.pow_right k).eq]

/-- The matrix exponential of `-M` is a left inverse of that of `M`. -/
theorem matrix_exp_neg_mul_self {q : Type} [Fintype q] [DecidableEq q]
    (M : Matrix q q ℝ) :
    NormedSpace.exp ℝ (-M) * NormedSpace.exp ℝ M = 1 := by
  rw [← Matrix.exp_add_of_commute ℝ (-M) M (Commute.neg_left (Commute.refl M)),
    neg_add_cancel]
  exact NormedSpace.exp_zero

/-- Orthonormality of the output of `Stiefel.exp`: for an orthonormal point `X`
and a tangent direction `U` (so that `XᵀU` is skew-symmetric), the computed
geodesic endpoint again has orthonormal columns. -/
theorem stiefel_exp_orthonormal {n p : ℕ} (X U : Matrix (Fin n) (Fin p) ℝ)
    (hX : Xᵀ * X = 1) (hT : Xᵀ * U + Uᵀ * X = 0) :
    (Stiefel.exp X U)ᵀ * Stiefel.exp X U = 1 := by
  have hUX : Uᵀ * X = -(Xᵀ * U) := eq_neg_of_add_eq_zero_right hT
  set A := Xᵀ * U with hA
  have hAT : Aᵀ = -A := by
    rw [hA, Matrix.transpose_mul, Matrix.transpose_transpose, hUX]
  set S := Uᵀ * U with hS
  have hST : Sᵀ = S := by
    rw [hS, Matrix.transpose_mul, Matrix.transpose_transpose]
  set J : Matrix (Fin p ⊕ Fin p) (Fin p ⊕ Fin p) ℝ := Matrix.fromBlocks 1 A (-A) S
    with hJ
  set M : Matrix (Fin p ⊕ Fin p) (Fin p ⊕ Fin p) ℝ := Matrix.fromBlocks A (-S) 1 A
    with hMB
  have hPP : (Matrix.fromColumns X U)ᵀ * Matrix.fromColumns X U = J := by
    rw [Matrix.transpose_fromColumns, Matrix.fromRows_mul_fromColumns, hX, hUX, hJ,
      ← hA, ← hS]
  have hsemi : J * (-M) = Mᵀ * J := by
    rw [hMB, hJ, Matrix.fromBlocks_transpose, hAT, Matrix.transpose_neg, hST,
      Matrix.transpose_one, Matrix.fromBlocks_neg, neg_neg,
      Matrix.fromBlocks_multiply, Matrix.fromBlocks_multiply]
    refine Matrix.fromBlocks_inj.mpr ⟨?_, ?_, ?_, ?_⟩ <;>
      simp only [Matrix.one_mul, Matrix.mul_one, Matrix.mul_neg, Matrix.neg_mul,
        neg_neg] <;>
      abel
  have hcol : J * NormedSpace.exp ℝ (-M) = NormedSpace.exp ℝ Mᵀ * J :=
    matrix_mul_exp_of_semiconj hsemi
  have hWJW : (NormedSpace.exp ℝ M)ᵀ * (J * NormedSpace.exp ℝ M) = J := by
    rw [← Matrix.exp_transpose]
    calc NormedSpace.exp ℝ Mᵀ * (J * NormedSpace.exp ℝ M)
        = NormedSpace.exp ℝ Mᵀ * J * NormedSpace.exp ℝ M := by
          rw [Matrix.mul_assoc]
      _ = J * NormedSpace.exp ℝ (-M) * NormedSpace.exp ℝ M := by rw [hcol]
      _ = J * (NormedSpace.exp ℝ (-M) * NormedSpace.exp ℝ M) := by
          rw [Matrix.mul_assoc]
      _ = J := by rw [matrix_exp_neg_mul_self, Matrix.mul_one]
  have hY : Stiefel.exp X U = Matrix.fromColumns X U * NormedSpace.exp ℝ M *
      Matrix.fromRows (NormedSpace.exp ℝ (-A)) 0 := rfl
  rw [hY]
  set E := NormedSpace.exp ℝ (-A) with hE
  set W := NormedSpace.exp ℝ M with hW
  set P := Matrix.fromColumns X U with hP
  calc (P * W * Matrix.fromRows E 0)ᵀ * (P * W * Matrix.fromRows E 0)
      = (Matrix.fromRows E 0)ᵀ * (Wᵀ * (Pᵀ * P * W) * Matrix.fromRows E 0) := by
        rw [Matrix.transpose_mul, Matrix.transpose_mul]
        simp only [Matrix.mul_assoc]
    _ = (Matrix.fromRows E 0)ᵀ * (J * Matrix.fromRows E 0) := by
        rw [hPP]
        rw [show Wᵀ * (J * W) * Matrix.fromRows E 0 = Wᵀ * (J * W) * Matrix.fromRows E 0
          from rfl]
        rw [hWJW]
    _ = 1 := by
        rw [hJ, Matrix.transpose_fromRows, Matrix.transpose_zero,
          Matrix.fromBlocks_mul_fromRows, Matrix.fromColumns_mul_fromRows]
        simp only [Matrix.one_mul, Matrix.mul_zero, add_zero, Matrix.zero_mul]
        rw [hE, ← Matrix.exp_transpose, Matrix.transpose_neg, hAT, neg_neg]
        have h1 := matrix_exp_neg_mul_self (-A)
        rw [neg_neg] at h1
        exact h1

/-! ### Lemmas on the FixedRankEmbedded operations -/

/-- The `Up` component produced by the dense projection is orthogonal to `U`. -/
theorem fre_proj_up_orth {α : Type} [LinearOrderedField α] {m n k : ℕ}
    (X : Matrix (Fin m) (Fin k) α × (Fin k → α) × Matrix (Fin k) (Fin n) α)
    (Z : Matrix (Fin m) (Fin n) α) (hU : X.1ᵀ * X.1 = 1) :
    X.1ᵀ * (FixedRankEmbedded.proj X Z).1 = 0 := by
  show X.1ᵀ * (Z * X.2.2ᵀ - X.1 * (X.1ᵀ * (Z * X.2.2ᵀ))) = 0
  rw [Matrix.mul_sub, ← Matrix.mul_assoc, ← Matrix.mul_assoc, hU, Matrix.one_mul,
    Matrix.mul_assoc, sub_self]

/-- The `Vp` component produced by the dense projection is orthogonal to the
rows of `Vt`. -/
theorem fre_proj_vp_orth {α : Type} [LinearOrderedField α] {m n k : ℕ}
    (X : Matrix (Fin m) (Fin k) α × (Fin k → α) × Matrix (Fin k) (Fin n) α)
    (Z : Matrix (Fin m) (Fin n) α) (hV : X.2.2 * X.2.2ᵀ = 1) :
    X.2.2 * (FixedRankEmbedded.proj X Z).2.2 = 0 := by
  show X.2.2 * (Zᵀ * X.1 - X.2.2ᵀ * (X.1ᵀ * (Z * X.2.2ᵀ))ᵀ) = 0
  rw [Matrix.mul_sub]
  rw [← Matrix.mul_assoc X.2.2 X.2.2ᵀ, hV, Matrix.one_mul]
  rw [Matrix.transpose_mul, Matrix.transpose_mul, Matrix.transpose_transpose,
    Matrix.transpose_transpose]
  rw [Matrix.mul_assoc, sub_self]

/-- Feeding a triple whose outer components are orthogonal to the point back
into the factored-ambient projection yields the zero tangent triple. -/
theorem fre_projFactored_orth_eq_zero {α : Type} [LinearOrderedField α] {m n k : ℕ}
    (X : Matrix (Fin m) (Fin k) α × (Fin k → α) × Matrix (Fin k) (Fin n) α)
    (T : Matrix (Fin m) (Fin k) α × Matrix (Fin k) (Fin k) α × Matrix (Fin n) (Fin k) α)
    (hUp : X.1ᵀ * T.1 = 0) (hVp : X.2.2 * T.2.2 = 0) :
    FixedRankEmbedded.projFactored X T = (0, 0, 0) := by
  have hZV : T.1 * T.2.1 * T.2.2ᵀ * X.2.2ᵀ = 0 := by
    have e : T.2.2ᵀ * X.2.2ᵀ = (X.2.2 * T.2.2)ᵀ := (Matrix.transpose_mul X.2.2 T.2.2).symm
    rw [Matrix.mul_assoc, e, hVp, Matrix.transpose_zero, Matrix.mul_zero]
  have hZtU : T.2.2 * T.2.1 * T.1ᵀ * X.1 = 0 := by
    have e : T.1ᵀ * X.1 = (X.1ᵀ * T.1)ᵀ := by
      rw [Matrix.transpose_mul, Matrix.transpose_transpose]
    rw [Matrix.mul_assoc, e, hUp, Matrix.transpose_zero, Matrix.mul_zero]
  show (T.1 * T.2.1 * T.2.2ᵀ * X.2.2ᵀ - X.1 * (X.1ᵀ * (T.1 * T.2.1 * T.2.2ᵀ * X.2.2ᵀ)),
      X.1ᵀ * (T.1 * T.2.1 * T.2.2ᵀ * X.2.2ᵀ),
      T.2.2 * T.2.1 * T.1ᵀ * X.1 - X.2.2ᵀ * (X.1ᵀ * (T.1 * T.2.1 * T.2.2ᵀ * X.2.2ᵀ))ᵀ) =
    (0, 0, 0)
  rw [hZV, hZtU]
  simp

/-- Double application of the FixedRankEmbedded projection, with the tangent
triple fed back directly as the ambient argument, collapses to zero at every
valid point. -/
theorem fre_proj_proj_eq_zero {α : Type} [LinearOrderedField α] {m n k : ℕ}
    (X : Matrix (Fin m) (Fin k) α × (Fin k → α) × Matrix (Fin k) (Fin n) α)
    (Z : Matrix (Fin m) (Fin n) α) (hU : X.1ᵀ * X.1 = 1) (hV : X.2.2 * X.2.2ᵀ = 1) :
    FixedRankEmbedded.projFactored X (FixedRankEmbedded.proj X Z) = (0, 0, 0) :=
  fre_projFactored_orth_eq_zero X _ (fre_proj_up_orth X Z hU) (fre_proj_vp_orth X Z hV)

/-- The machine-epsilon perturbation is strictly positive. -/
theorem fre_npSpacing1_pos {α : Type} [LinearOrderedField α] :
    (0 : α) < FixedRankEmbedded.npSpacing1 := by
  unfold FixedRankEmbedded.npSpacing1
  positivity

/-- C4: every entry of the `S` component returned by `FixedRankEmbedded.retr`
is strictly positive: the singular values delivered by `numpy.linalg.svd`
(non-negative by its documented contract) are perturbed by the machine epsilon
`np.spacing(1)`, so `retr` never returns a representation with a zero singular
value. -/
theorem fre_retr_S_entry_pos {α : Type} [LinearOrderedField α] {m n k : ℕ}
    (qrU : Matrix (Fin m) (Fin k) α → Matrix (Fin m) (Fin k) α × Matrix (Fin k) (Fin k) α)
    (qrV : Matrix (Fin n) (Fin k) α → Matrix (Fin n) (Fin k) α × Matrix (Fin k) (Fin k) α)
    (svd : Matrix (Fin k ⊕ Fin k) (Fin k ⊕ Fin k) α →
      Matrix (Fin k ⊕ Fin k) (Fin k ⊕ Fin k) α × (Fin k ⊕ Fin k → α) ×
        Matrix (Fin k ⊕ Fin k) (Fin k ⊕ Fin k) α)
    (hsvd : FixedRankEmbedded.npSVDContract svd)
    (X : Matrix (Fin m) (Fin k) α × (Fin k → α) × Matrix (Fin k) (Fin n) α)
    (Z : Matrix (Fin m) (Fin k) α × Matrix (Fin k) (Fin k) α × Matrix (Fin n) (Fin k) α)
    (i : Fin k) :
    0 < (FixedRankEmbedded.retr qrU qrV svd X Z).2.1 i := by
  show 0 < (svd (FixedRankEmbedded.retrT X Z (qrU Z.1).2 (qrV Z.2.2).2)).2.1 (Sum.inl i) +
    FixedRankEmbedded.npSpacing1
  have h1 : (0 : α) < FixedRankEmbedded.npSpacing1 := fre_npSpacing1_pos
  have h2 := hsvd (FixedRankEmbedded.retrT X Z (qrU Z.1).2 (qrV Z.2.2).2) (Sum.inl i)
  linarith

/-- The singular-value list produced by `FixedRankEmbedded.rand` is sorted in
descending order. -/
theorem fre_rand_S_sorted {α : Type} [LinearOrderedField α] (samples : List α) :
    List.Sorted (fun a b => b ≤ a) ((samples.insertionSort (· ≤ ·)).reverse) := by
  have h := List.sorted_insertionSort (· ≤ ·) samples
  exact List.pairwise_reverse.mpr h

/-- The singular-value list produced by `FixedRankEmbedded.rand` keeps exactly
the sampled entries (so non-negativity of the uniform samples is preserved). -/
theorem fre_rand_S_mem {α : Type} [LinearOrderedField α] (samples : List α) (x : α) :
    x ∈ (samples.insertionSort (· ≤ ·)).reverse ↔ x ∈ samples := by
  rw [List.mem_reverse, List.mem_insertionSort]

/-- The randvec scaling factor equals `1 / sqrt(N)`. -/
theorem product_scale_eq {N : ℕ} : Product.scale N = (Real.sqrt N)⁻¹ := by
  rw [Product.scale, Real.rpow_neg (Nat.cast_nonneg N), Real.sqrt_eq_rpow]

/-- The square of the randvec scaling factor is `1 / N`. -/
theorem product_scale_sq {N : ℕ} : Product.scale N ^ (2 : ℕ) = ((N : ℝ))⁻¹ := by
  rw [Product.scale, ← Real.rpow_natCast ((N : ℝ) ^ (-(1 / 2) : ℝ)) 2,
    ← Real.rpow_mul (Nat.cast_nonneg N)]
  norm_num [Real.rpow_neg_one]

/-- Unit norm of `Product.randvec` under the direct-sum metric, assuming each
factor metric is quadratic under scaling and each factor sample has unit
norm. -/
theorem product_randvec_norm_eq_one {N : ℕ} {P T : Fin N → Type}
    [∀ i, SMul ℝ (T i)]
    (manInner : ∀ i, P i → T i → T i → ℝ) (manRandvec : ∀ i, P i → T i)
    (X : ∀ i, P i) (hN : 0 < N)
    (hsq : ∀ (i : Fin N) (c : ℝ) (t : T i),
      manInner i (X i) (c • t) (c • t) = c ^ (2 : ℕ) * manInner i (X i) t t)
    (hunit : ∀ i, manInner i (X i) (manRandvec i (X i)) (manRandvec i (X i)) = 1) :
    Product.norm manInner X (Product.randvec manRandvec X) = 1 := by
  have hinner : Product.inner manInner X (Product.randvec manRandvec X)
      (Product.randvec manRandvec X) = 1 := by
    unfold Product.inner Product.randvec
    have hterm : ∀ i : Fin N,
        manInner i (X i) (Product.scale N • manRandvec i (X i))
          (Product.scale N • manRandvec i (X i)) = ((N : ℝ))⁻¹ := by
      intro i
      rw [hsq, hunit, mul_one, product_scale_sq]
    rw [Finset.sum_congr rfl fun i _ => hterm i, Finset.sum_const,
      Finset.card_univ, Fintype.card_fin, nsmul_eq_mul]
    exact mul_inv_cancel₀ (Nat.cast_ne_zero.mpr hN.ne')
  unfold Product.norm
  rw [hinner, Real.sqrt_one]

/-- Writing a block of the array at reference `r` leaves every other reference
unchanged. -/
theorem readArr_writeBlock_ne {n p k : ℕ} (h : List (SBlocks n p k)) (r : ℕ)
    (i : Fin k) (v : Matrix (Fin n) (Fin p) ℚ) (j : ℕ) (hne : j ≠ r) :
    readArr (writeBlock h r i v) j = readArr h j := by
  unfold readArr writeBlock
  simp only [List.getD_eq_getElem?_getD]
  rw [List.getElem?_set_ne (Ne.symm hne)]

/-- The write loop of `Stiefel.retr` only ever touches the array at reference
`r`, whatever values it computes from the heap along the way. -/
theorem readArr_foldl_write {n p k : ℕ}
    (F : List (SBlocks n p k) → Fin k → Matrix (Fin n) (Fin p) ℚ) (r j : ℕ)
    (hne : j ≠ r) (l : List (Fin k)) :
    ∀ h : List (SBlocks n p k),
      readArr (l.foldl (fun hh i => writeBlock hh r i (F hh i)) h) j = readArr h j := by
  induction l with
  | nil => intro h; rfl
  | cons i rest ih =>
    intro h
    rw [List.foldl_cons, ih, readArr_writeBlock_ne _ _ _ _ _ hne]

/-- Allocation at the end of the heap leaves existing references unchanged. -/
theorem readArr_append_lt {n p k : ℕ} (h : List (SBlocks n p k))
    (l2 : List (SBlocks n p k)) (j : ℕ) (hj : j < h.length) :
    readArr (h ++ l2) j = readArr h j := by
  unfold readArr
  simp only [List.getD_eq_getElem?_getD]
  rw [List.getElem?_append_left hj]

/-- Frame property of the `Stiefel.retr` `k > 1` heap program: the input arrays
`X` and `G` hold the same values after the call as before. -/
theorem stiefel_retrK_inputs_unchanged {n p k : ℕ}
    (qr : Matrix (Fin n) (Fin p) ℚ → Matrix (Fin n) (Fin p) ℚ × Matrix (Fin p) (Fin p) ℚ)
    (h : List (SBlocks n p k)) (xr gr : ℕ) (hx : xr < h.length) (hg : gr < h.length) :
    readArr (runRetrK qr h xr gr).1 xr = readArr h xr ∧
      readArr (runRetrK qr h xr gr).1 gr = readArr h gr := by
  constructor
  · show readArr ((List.finRange k).foldl _ _) xr = readArr h xr
    rw [readArr_foldl_write _ _ _ (Nat.ne_of_lt hx), readArr_append_lt _ _ _ hx]
  · show readArr ((List.finRange k).foldl _ _) gr = readArr h gr
    rw [readArr_foldl_write _ _ _ (Nat.ne_of_lt hg), readArr_append_lt _ _ _ hg]

/-- Frame property of the `FixedRankEmbedded.randvec` heap program: every
previously allocated array (in particular the three components of the input
point) holds the same value after the call as before. -/
theorem fre_randvec_inputs_unchanged {m n k : ℕ} (h : List (FVal m n k))
    (ur sr vtr : ℕ) (Upr : Matrix (Fin m) (Fin k) ℝ) (Mr : Matrix (Fin k) (Fin k) ℝ)
    (Vpr : Matrix (Fin n) (Fin k) ℝ) (j : ℕ) (hj : j < h.length) :
    ((runFreRandvec h ur sr vtr Upr Mr Vpr).1).getD j (FVal.scal 0) =
      h.getD j (FVal.scal 0) := by
  show (h ++ _).getD j (FVal.scal 0) = h.getD j (FVal.scal 0)
  simp only [List.getD_eq_getElem?_getD]
  rw [List.getElem?_append_left hj]

/-! ## Claim theorems -/

/-- C1 (amended): projection is idempotent for Stiefel (single block and per
block, at any point with orthonormal columns) and for Product (at any point
where every factor projection is idempotent); for FixedRankEmbedded, feeding
the tangent-triple output of `proj` back as the second argument does not
reproduce it: the namedtuple is read by `_apply_ambient` as the low-rank
ambient matrix `Up @ M @ Vp.T`, which is orthogonal to the tangent space at
every valid point, so the double projection is the zero tangent triple. -/
theorem proj_idempotence_amended :
    (∀ (n p : ℕ) (X U : Matrix (Fin n) (Fin p) ℚ), Xᵀ * X = 1 →
      Stiefel.proj X (Stiefel.proj X U) = Stiefel.proj X U) ∧
    (∀ (n p k : ℕ) (X U : Fin k → Matrix (Fin n) (Fin p) ℚ),
      (∀ i, (X i)ᵀ * X i = 1) →
      Stiefel.projK X (Stiefel.projK X U) = Stiefel.projK X U) ∧
    (∀ (N : ℕ) (P T : Fin N → Type) (manProj : ∀ i, P i → T i → T i)
      (X : ∀ i, P i) (U : ∀ i, T i),
      (∀ i (z : T i), manProj i (X i) (manProj i (X i) z) = manProj i (X i) z) →
      Product.proj manProj X (Product.proj manProj X U) = Product.proj manProj X U) ∧
    (∀ (m n k : ℕ)
      (X : Matrix (Fin m) (Fin k) ℚ × (Fin k → ℚ) × Matrix (Fin k) (Fin n) ℚ)
      (Z : Matrix (Fin m) (Fin n) ℚ), X.1ᵀ * X.1 = 1 → X.2.2 * X.2.2ᵀ = 1 →
      FixedRankEmbedded.projFactored X (FixedRankEmbedded.proj X Z) = (0, 0, 0)) := by
  refine ⟨?_, ?_, ?_, ?_⟩
  · exact fun n p X U h => stiefel_proj_idem X U h
  · intro n p k X U h
    funext i
    exact stiefel_proj_idem (X i) (U i) (h i)
  · intro N P T manProj X U h
    funext i
    exact h i (U i)
  · exact fun m n k X Z hU hV => fre_proj_proj_eq_zero X Z hU hV

/-- The point `c1X` has orthonormal `U` column. -/
theorem c1X_U_orthonormal : c1X.1ᵀ * c1X.1 = 1 := by
  ext i j
  fin_cases i <;> fin_cases j <;>
    · simp only [c1X, Matrix.mul_apply, Matrix.transpose_apply, Fin.sum_univ_succ,
        Fin.sum_univ_zero, Matrix.cons_val', Matrix.cons_val_zero, Matrix.cons_val_one,
        Matrix.head_cons, Matrix.of_apply, Matrix.cons_val_fin_one, Matrix.vecHead,
        Matrix.vecTail, Function.comp, Matrix.one_apply]
      norm_num

/-- The point `c1X` has orthonormal `Vt` row. -/
theorem c1X_Vt_orthonormal : c1X.2.2 * c1X.2.2ᵀ = 1 := by
  ext i j
  fin_cases i <;> fin_cases j <;>
    · simp only [c1X, Matrix.mul_apply, Matrix.transpose_apply, Fin.sum_univ_succ,
        Fin.sum_univ_zero, Matrix.cons_val', Matrix.cons_val_zero, Matrix.cons_val_one,
        Matrix.head_cons, Matrix.of_apply, Matrix.cons_val_fin_one, Matrix.vecHead,
        Matrix.vecTail, Function.comp, Matrix.one_apply]
      norm_num

/-- Concrete evaluation: the projection of `c1Z` at `c1X` is the tangent triple
`(e₂, 0, e₂)`, which is nonzero. -/
theorem c1_proj_value :
    FixedRankEmbedded.proj c1X c1Z = (!![0; 1], !![0], !![0; 1]) := by
  unfold FixedRankEmbedded.proj c1X c1Z
  refine Prod.ext ?_ (Prod.ext ?_ ?_) <;>
    · ext i j
      fin_cases i <;> fin_cases j <;>
        · simp only [Matrix.mul_apply, Matrix.transpose_apply, Matrix.sub_apply,
            Fin.sum_univ_succ, Fin.sum_univ_zero, Matrix.cons_val', Matrix.cons_val_zero,
            Matrix.cons_val_one, Matrix.head_cons, Matrix.of_apply, Matrix.cons_val_fin_one,
            Matrix.vecHead, Matrix.vecTail, Function.comp]
          norm_num

/-- Counterexample to C1 as stated: at the valid point `c1X` and dense ambient
matrix `c1Z`, feeding the tangent triple returned by `FixedRankEmbedded.proj`
back into `proj` does not return the same tangent triple. -/
theorem fre_proj_feedback_counterexample :
    FixedRankEmbedded.projFactored c1X (FixedRankEmbedded.proj c1X c1Z) ≠
      FixedRankEmbedded.proj c1X c1Z := by
  have hz := fre_proj_proj_eq_zero c1X c1Z c1X_U_orthonormal c1X_Vt_orthonormal
  rw [hz, c1_proj_value]
  intro h
  have h2 := congrArg (fun t => t.1 1 0) h
  simp only [Matrix.zero_apply, Matrix.cons_val', Matrix.cons_val_zero,
    Matrix.cons_val_one, Matrix.head_cons, Matrix.of_apply, Matrix.cons_val_fin_one,
    Matrix.vecHead, Matrix.vecTail, Function.comp] at h2
  norm_num at h2

/-- Witness for C1 (amended): each hypothesis is discharged at a concrete
instance. -/
theorem proj_idempotence_amended_witness :
    (Stiefel.proj (1 : Matrix (Fin 1) (Fin 1) ℚ) (Stiefel.proj 1 !![5]) =
      Stiefel.proj 1 !![5]) ∧
    (Product.proj (fun (_ : Fin 1) (_ : ℚ) (z : ℚ) => z) (fun _ => 0)
        (Product.proj (fun _ _ z => z) (fun _ => 0) (fun _ => 3)) =
      Product.proj (fun _ _ z => z) (fun _ => 0) (fun _ => 3)) ∧
    (FixedRankEmbedded.projFactored c1X (FixedRankEmbedded.proj c1X c1Z) =
      (0, 0, 0)) := by
  refine ⟨?_, ?_, ?_⟩
  · exact proj_idempotence_amended.1 1 1 1 !![5] (by simp)
  · exact proj_idempotence_amended.2.2.1 1 (fun _ => ℚ) (fun _ => ℚ)
      (fun _ _ z => z) (fun _ => 0) (fun _ => 3) (fun _ _ => rfl)
  · exact proj_idempotence_amended.2.2.2 2 2 1 c1X c1Z c1X_U_orthonormal
      c1X_Vt_orthonormal

/-- C2: any attempt to rebind the `manifolds` attribute of a constructed
Product raises an AttributeError-class error, and no rebound object is
produced (the factor list is untouched). -/
theorem product_setattr_manifolds_raises (o : Product.Obj) (v : ℕ) :
    Product.setattrPy o "manifolds" v =
      Except.error "Cannot override manifolds attribute" ∧
    ∀ o2 : Product.Obj, Product.setattrPy o "manifolds" v ≠ Except.ok o2 := by
  have h : Product.setattrPy o "manifolds" v =
      Except.error "Cannot override manifolds attribute" := by
    unfold Product.setattrPy Product.hasattrPy
    simp
  refine ⟨h, fun o2 hk => ?_⟩
  rw [h] at hk
  exact Except.noConfusion hk

/-- Witness for C2 at a concrete one-factor Product instance. -/
theorem product_setattr_manifolds_raises_witness :
    Product.setattrPy ⟨[PyArg.manifold false 0], []⟩ "manifolds" 7 =
      Except.error "Cannot override manifolds attribute" :=
  (product_setattr_manifolds_raises ⟨[PyArg.manifold false 0], []⟩ 7).1

/-- C3: `Stiefel(n, p, k)` raises exactly when `n < p`, `p < 1` or `k < 1`,
and `FixedRankEmbedded(m, n, k)` raises exactly when `k > min(m, n)`, `k < 1`,
or `m` or `n` is non-positive; valid parameters construct without error. -/
theorem init_validation :
    (∀ n p k : ℤ, errored (Stiefel.init n p k) = true ↔ (n < p ∨ p < 1 ∨ k < 1)) ∧
    (∀ m n k : ℤ, errored (FixedRankEmbedded.init m n k) = true ↔
      (min m n < k ∨ k < 1 ∨ m ≤ 0 ∨ n ≤ 0)) := by
  have hs : ∀ a b c : ℤ, errored (Stiefel.init a b c) = true ↔
      (a < b ∨ b < 1 ∨ c < 1) := by
    intro a b c
    unfold Stiefel.init
    split_ifs with h1 h2 <;> simp [errored] <;> omega
  refine ⟨hs, ?_⟩
  intro m n k
  have h1 := hs m k 1
  have h2 := hs n k 1
  unfold FixedRankEmbedded.init
  cases e1 : Stiefel.init m k 1 with
  | error e =>
    rw [e1] at h1
    simp [errored] at h1 ⊢
    omega
  | ok v =>
    rw [e1] at h1
    simp [errored] at h1
    cases e2 : Stiefel.init n k 1 with
    | error e =>
      rw [e2] at h2
      simp [errored] at h2 ⊢
      omega
    | ok w =>
      rw [e2] at h2
      simp [errored] at h2 ⊢
      omega

/-- Witness for C3: `Stiefel(1, 2)` raises, `FixedRankEmbedded(5, 4, 3)` does
not. -/
theorem init_validation_witness :
    errored (Stiefel.init 1 2 1) = true ∧
      errored (FixedRankEmbedded.init 5 4 3) ≠ true :=
  ⟨(init_validation.1 1 2 1).mpr (by decide),
   fun hc => absurd ((init_validation.2 5 4 3).mp hc) (by decide)⟩

/-- Witness for C4: a concrete rank-one instance with the zero tangent triple
and an SVD oracle returning all-zero singular values. -/
theorem fre_retr_singular_values_pos_witness :
    0 < (FixedRankEmbedded.retr (fun A : Matrix (Fin 1) (Fin 1) ℚ => (A, 1))
      (fun A : Matrix (Fin 1) (Fin 1) ℚ => (A, 1))
      (fun _ => (1, fun _ => 0, 1))
      (!![1], fun _ => 1, !![1]) (!![0], !![0], !![0])).2.1 0 :=
  fre_retr_S_entry_pos _ _ _ (fun _ _ => le_refl 0) _ _ 0

/-- C5: every Stiefel point produced by `rand`, `retr` and `exp` has
orthonormal columns (per block for `k > 1`), the sign-correction diagonal of
`retr` has entries in `{1, -1}`, and multiplying by it preserves column
orthonormality. The QR factor contract of `numpy.linalg.qr` is assumed for
`rand`/`retr`; `exp` is proved outright from the matrix exponential. -/
theorem stiefel_orthonormality :
    (∀ x : ℝ, Stiefel.signCorrection x = 1 ∨ Stiefel.signCorrection x = -1) ∧
    (∀ (n p : ℕ) (q : Matrix (Fin n) (Fin p) ℝ) (r : Matrix (Fin p) (Fin p) ℝ),
      qᵀ * q = 1 → (q * Stiefel.signDiag r)ᵀ * (q * Stiefel.signDiag r) = 1) ∧
    (∀ (n p : ℕ)
      (qr : Matrix (Fin n) (Fin p) ℝ → Matrix (Fin n) (Fin p) ℝ × Matrix (Fin p) (Fin p) ℝ)
      (X G : Matrix (Fin n) (Fin p) ℝ), Stiefel.npQRContract qr →
      (Stiefel.retr qr X G)ᵀ * Stiefel.retr qr X G = 1) ∧
    (∀ (n p k : ℕ)
      (qr : Matrix (Fin n) (Fin p) ℝ → Matrix (Fin n) (Fin p) ℝ × Matrix (Fin p) (Fin p) ℝ)
      (X G : Fin k → Matrix (Fin n) (Fin p) ℝ), Stiefel.npQRContract qr →
      ∀ i, (Stiefel.retrK qr X G i)ᵀ * Stiefel.retrK qr X G i = 1) ∧
    (∀ (n p : ℕ)
      (qr : Matrix (Fin n) (Fin p) ℝ → Matrix (Fin n) (Fin p) ℝ × Matrix (Fin p) (Fin p) ℝ)
      (A : Matrix (Fin n) (Fin p) ℝ), Stiefel.npQRContract qr →
      (Stiefel.rand qr A)ᵀ * Stiefel.rand qr A = 1) ∧
    (∀ (n p k : ℕ)
      (qr : Matrix (Fin n) (Fin p) ℝ → Matrix (Fin n) (Fin p) ℝ × Matrix (Fin p) (Fin p) ℝ)
      (rs : Fin k → Matrix (Fin n) (Fin p) ℝ), Stiefel.npQRContract qr →
      ∀ i, (Stiefel.randK qr rs i)ᵀ * Stiefel.randK qr rs i = 1) ∧
    (∀ (n p : ℕ) (X U : Matrix (Fin n) (Fin p) ℝ), Xᵀ * X = 1 →
      Xᵀ * U + Uᵀ * X = 0 → (Stiefel.exp X U)ᵀ * Stiefel.exp X U = 1) ∧
    (∀ (n p k : ℕ) (X U : Fin k → Matrix (Fin n) (Fin p) ℝ),
      (∀ i, (X i)ᵀ * X i = 1) → (∀ i, (X i)ᵀ * U i + (U i)ᵀ * X i = 0) →
      ∀ i, (Stiefel.expK X U i)ᵀ * Stiefel.expK X U i = 1) := by
  refine ⟨fun x => stiefel_signCorrection_mem x, ?_, ?_, ?_, ?_, ?_, ?_, ?_⟩
  · exact fun n p q r hq => stiefel_signDiag_preserves q r hq
  · exact fun n p qr X G hqr => stiefel_retr_orthonormal qr hqr X G
  · exact fun n p k qr X G hqr i => stiefel_retr_orthonormal qr hqr (X i) (G i)
  · exact fun n p qr A hqr => hqr A
  · exact fun n p k qr rs hqr i => hqr (rs i)
  · exact fun n p X U hX hT => stiefel_exp_orthonormal X U hX hT
  · exact fun n p k X U hX hT i => stiefel_exp_orthonormal (X i) (U i) (hX i) (hT i)

/-- Witness for C5 at `n = p = 1` with a concrete QR oracle, the identity
point, and the zero tangent vector. -/
theorem stiefel_orthonormality_witness :
    ((Stiefel.retr w5qr (1 : Matrix (Fin 1) (Fin 1) ℝ) 0)ᵀ *
      Stiefel.retr w5qr 1 0 = 1) ∧
    ((Stiefel.rand w5qr (1 : Matrix (Fin 1) (Fin 1) ℝ))ᵀ * Stiefel.rand w5qr 1 = 1) ∧
    ((Stiefel.exp (1 : Matrix (Fin 1) (Fin 1) ℝ) 0)ᵀ * Stiefel.exp 1 0 = 1) := by
  have hqr : Stiefel.npQRContract w5qr := by
    intro A
    simp [w5qr]
  exact ⟨stiefel_orthonormality.2.2.1 1 1 w5qr 1 0 hqr,
    stiefel_orthonormality.2.2.2.2.1 1 1 w5qr 1 hqr,
    stiefel_orthonormality.2.2.2.2.2.2.1 1 1 1 0 (by simp) (by simp)⟩

/-- C6: `FixedRankEmbedded.rand` returns `U` with orthonormal columns, `Vt`
with orthonormal rows, and a singular-value list of length `k` whose entries
are the (non-negative) uniform samples sorted in descending order, given the
orthonormality contract of the two internal Stiefel samples. -/
theorem fre_rand_invariants {m n k : ℕ} (qU : Matrix (Fin m) (Fin k) ℚ)
    (qV : Matrix (Fin n) (Fin k) ℚ) (samples : List ℚ)
    (hqU : qUᵀ * qU = 1) (hqV : qVᵀ * qV = 1) (hsamp : ∀ x ∈ samples, 0 ≤ x)
    (hlen : samples.length = k) :
    ((FixedRankEmbedded.rand qU qV samples).1)ᵀ *
      (FixedRankEmbedded.rand qU qV samples).1 = 1 ∧
    (FixedRankEmbedded.rand qU qV samples).2.2 *
      ((FixedRankEmbedded.rand qU qV samples).2.2)ᵀ = 1 ∧
    (∀ x ∈ (FixedRankEmbedded.rand qU qV samples).2.1, 0 ≤ x) ∧
    List.Sorted (fun a b => b ≤ a) (FixedRankEmbedded.rand qU qV samples).2.1 ∧
    ((FixedRankEmbedded.rand qU qV samples).2.1).length = k := by
  refine ⟨hqU, ?_, ?_, fre_rand_S_sorted samples, ?_⟩
  · show qVᵀ * (qVᵀ)ᵀ = 1
    rw [Matrix.transpose_transpose]
    exact hqV
  · intro x hx
    exact hsamp x ((fre_rand_S_mem samples x).mp hx)
  · show ((samples.insertionSort (· ≤ ·)).reverse).length = k
    rw [List.length_reverse, List.length_insertionSort]
    exact hlen

/-- Witness for C6 at `m = n = k = 1` with identity Stiefel samples and the
single uniform sample `1/2`. -/
theorem fre_rand_invariants_witness :
    List.Sorted (fun a b => b ≤ a)
      (FixedRankEmbedded.rand (1 : Matrix (Fin 1) (Fin 1) ℚ)
        (1 : Matrix (Fin 1) (Fin 1) ℚ) [1 / 2]).2.1 ∧
    ((FixedRankEmbedded.rand (1 : Matrix (Fin 1) (Fin 1) ℚ)
        (1 : Matrix (Fin 1) (Fin 1) ℚ) [1 / 2]).2.1).length = 1 := by
  have h := fre_rand_invariants (1 : Matrix (Fin 1) (Fin 1) ℚ)
    (1 : Matrix (Fin 1) (Fin 1) ℚ) [1 / 2] (by simp) (by simp) (by norm_num) rfl
  exact ⟨h.2.2.2.1, h.2.2.2.2⟩

/-- C7: `Product.randvec` scales each factor sample by `1/sqrt(N)`, and the
resulting product tangent vector has unit norm under the direct-sum metric
whenever each factor sample has unit norm under a factor metric that is
quadratic under scaling. -/
theorem product_randvec_unit_norm {N : ℕ} {P T : Fin N → Type}
    [∀ i, SMul ℝ (T i)]
    (manInner : ∀ i, P i → T i → T i → ℝ) (manRandvec : ∀ i, P i → T i)
    (X : ∀ i, P i) (hN : 0 < N)
    (hsq : ∀ (i : Fin N) (c : ℝ) (t : T i),
      manInner i (X i) (c • t) (c • t) = c ^ (2 : ℕ) * manInner i (X i) t t)
    (hunit : ∀ i, manInner i (X i) (manRandvec i (X i)) (manRandvec i (X i)) = 1) :
    (∀ i, Product.randvec manRandvec X i = (Real.sqrt N)⁻¹ • manRandvec i (X i)) ∧
    Product.norm manInner X (Product.randvec manRandvec X) = 1 := by
  constructor
  · intro i
    show Product.scale N • manRandvec i (X i) = (Real.sqrt N)⁻¹ • manRandvec i (X i)
    rw [product_scale_eq]
  · exact product_randvec_norm_eq_one manInner manRandvec X hN hsq hunit

/-- Witness for C7: a single Euclidean factor with the standard product metric
and the constant unit sample. -/
theorem product_randvec_unit_norm_witness :
    Product.norm (fun (_ : Fin 1) (_ : ℝ) (g h : ℝ) => g * h) (fun _ => (0 : ℝ))
      (Product.randvec (fun _ _ => (1 : ℝ)) (fun _ => (0 : ℝ))) = 1 :=
  (product_randvec_unit_norm (fun (_ : Fin 1) (_ : ℝ) (g h : ℝ) => g * h)
    (fun _ _ => (1 : ℝ)) (fun _ => (0 : ℝ)) (by decide)
    (fun _ c t => by rw [smul_eq_mul]; ring)
    (fun _ => by norm_num)).2

/-- C8: the manifold operations leave their input arrays unchanged. The
`Stiefel.retr` `k > 1` branch, which allocates `XNew = X + G` and then mutates
it block-by-block in place, writes only into the freshly allocated array, and
the `FixedRankEmbedded.randvec` body performs no writes at all, so every
previously allocated array (in particular the point components) is unchanged. -/
theorem inputs_read_only :
    (∀ (n p k : ℕ)
      (qr : Matrix (Fin n) (Fin p) ℚ → Matrix (Fin n) (Fin p) ℚ × Matrix (Fin p) (Fin p) ℚ)
      (h : List (SBlocks n p k)) (xr gr : ℕ), xr < h.length → gr < h.length →
      readArr (runRetrK qr h xr gr).1 xr = readArr h xr ∧
        readArr (runRetrK qr h xr gr).1 gr = readArr h gr) ∧
    (∀ (m n k : ℕ) (h : List (FVal m n k)) (ur sr vtr : ℕ)
      (Upr : Matrix (Fin m) (Fin k) ℝ) (Mr : Matrix (Fin k) (Fin k) ℝ)
      (Vpr : Matrix (Fin n) (Fin k) ℝ) (j : ℕ), j < h.length →
      ((runFreRandvec h ur sr vtr Upr Mr Vpr).1).getD j (FVal.scal 0) =
        h.getD j (FVal.scal 0)) :=
  ⟨fun _ _ _ qr h xr gr hx hg => stiefel_retrK_inputs_unchanged qr h xr gr hx hg,
   fun _ _ _ h ur sr vtr Upr Mr Vpr j hj =>
     fre_randvec_inputs_unchanged h ur sr vtr Upr Mr Vpr j hj⟩

/-- Witness for C8: a concrete two-array heap for the retraction loop and a
one-cell heap for the randvec program. -/
theorem inputs_read_only_witness :
    (readArr (runRetrK (fun A : Matrix (Fin 1) (Fin 1) ℚ => (A, 1))
        ([fun _ => !![2], fun _ => !![3]] : List (SBlocks 1 1 1)) 0 1).1 0 =
      readArr ([fun _ => !![2], fun _ => !![3]] : List (SBlocks 1 1 1)) 0) ∧
    ((runFreRandvec ([FVal.scal 5] : List (FVal 1 1 1)) 0 0 0
        (0 : Matrix (Fin 1) (Fin 1) ℝ) 0 0).1).getD 0 (FVal.scal 0) =
      ([FVal.scal 5] : List (FVal 1 1 1)).getD 0 (FVal.scal 0) :=
  ⟨(inputs_read_only.1 1 1 1 (fun A => (A, 1))
      ([fun _ => !![2], fun _ => !![3]] : List (SBlocks 1 1 1)) 0 1
      (by decide) (by decide)).1,
   inputs_read_only.2 1 1 1 ([FVal.scal 5] : List (FVal 1 1 1)) 0 0 0 0 0 0 0
     (by decide)⟩

/-- C9: `Stiefel.inner` is the all-axes Frobenius contraction of its two
tangent arguments (2-d and 3-d block form alike): it is symmetric in `G` and
`H` and independent of the point argument. -/
theorem stiefel_inner_frobenius :
    (∀ (n p : ℕ) (X Y G H : Matrix (Fin n) (Fin p) ℚ),
      Stiefel.inner X G H = (∑ i, ∑ j, G i j * H i j) ∧
      Stiefel.inner X G H = Stiefel.inner X H G ∧
      Stiefel.inner Y G H = Stiefel.inner X G H) ∧
    (∀ (n p k : ℕ) (X Y G H : Fin k → Matrix (Fin n) (Fin p) ℚ),
      Stiefel.innerK X G H = (∑ b, ∑ i, ∑ j, G b i j * H b i j) ∧
      Stiefel.innerK X G H = Stiefel.innerK X H G ∧
      Stiefel.innerK Y G H = Stiefel.innerK X G H) := by
  constructor
  · intro n p X Y G H
    refine ⟨rfl, ?_, rfl⟩
    unfold Stiefel.inner
    exact Finset.sum_congr rfl fun i _ =>
      Finset.sum_congr rfl fun j _ => mul_comm _ _
  · intro n p k X Y G H
    refine ⟨rfl, ?_, rfl⟩
    unfold Stiefel.innerK
    exact Finset.sum_congr rfl fun b _ => Finset.sum_congr rfl fun i _ =>
      Finset.sum_congr rfl fun j _ => mul_comm _ _

/-- C10: `Product()` with no factors raises
`ValueError("At least one manifold required")`, and every successfully
constructed Product instance has at least one factor. -/
theorem product_init_nonempty :
    Product.init [] = Except.error "At least one manifold required" ∧
    ∀ (args : List PyArg) (o : Product.Obj),
      Product.init args = Except.ok o → 1 ≤ o.manifolds.length := by
  constructor
  · rfl
  · intro args o h
    unfold Product.init at h
    by_cases hl : args.length = 0
    · rw [if_pos hl] at h
      exact absurd h (by simp)
    · rw [if_neg hl] at h
      cases hc : Product.checkArgs args with
      | error e =>
        rw [hc] at h
        exact absurd h (by simp)
      | ok u =>
        rw [hc] at h
        injection h with h2
        rw [← h2]
        show 1 ≤ args.length
        omega

/-- Witness for C10: a one-factor construction succeeds and has one factor. -/
theorem product_init_nonempty_witness :
    1 ≤ (Product.Obj.mk [PyArg.manifold false 0] []).manifolds.length :=
  product_init_nonempty.2 [PyArg.manifold false 0]
    ⟨[PyArg.manifold false 0], []⟩ rfl

end Pymanopt
